import Mathlib

/-!
Verification of the hokipoki-cli ephemeral git server, token vault, sandbox
executor and requester review flow, as a shallow embedding in Lean 4.

Each definition is translated from the TypeScript source of the repository;
theorems settle the frozen claims about the specification.
-/

/-! ## Ephemeral Git Server: request authentication

Translated from `EphemeralGitServer.startHttpServer`: the handler extracts a
token from the `Authorization` header (`Bearer <tok>`, or `Basic <base64>`
whose decoded form is split at `:` and the username taken), falls back to the
`?token=` query parameter when the header token is absent or empty (JS falsy),
and compares the result against `oneTimeToken`. The `basicAuth` constructor
carries the base64-decoded credential string (the Buffer base64 transport
decode is abstracted away). -/

inductive AuthHeaderVal where
  | bearer (rest : String)
  | basicAuth (decoded : String)
  | otherScheme
deriving DecidableEq

structure GitRequest where
  auth : Option AuthHeaderVal
  queryToken : Option String
deriving DecidableEq

inductive GitResponse where
  | unauthorized (wwwAuthenticate : String)
  | dispatched
deriving DecidableEq

/-- Username extraction `credentials.split(':')[0]`: the segment before the
first `:` (the whole string when there is no `:`). -/
def usernameOf (credentials : String) : String :=
  ⟨credentials.data.takeWhile (fun c => c != ':')⟩

/-- Token carried by the `Authorization` header, following the two
`startsWith` branches of the handler. -/
def headerToken : AuthHeaderVal → Option String
  | .bearer rest => some rest
  | .basicAuth decoded => some (usernameOf decoded)
  | .otherScheme => none

/-- The token the handler ends up comparing: header first, then the `?token=`
query parameter when the header token is `null` or `""` (JS falsy check
`if (!token)`). -/
def effectiveToken (req : GitRequest) : Option String :=
  let t : Option String :=
    match req.auth with
    | some a => headerToken a
    | none => none
  match t with
  | some s => if s = "" then req.queryToken else some s
  | none => req.queryToken

/-- Outcome of the request handler: `401` with `WWW-Authenticate` on token
mismatch (`token !== this.oneTimeToken`, where a missing token compares
unequal), otherwise the request is dispatched to the spawned
`git http-backend` CGI process. -/
def handleRequest (oneTimeToken : String) (req : GitRequest) : GitResponse :=
  match effectiveToken req with
  | some t =>
      if t = oneTimeToken then .dispatched
      else .unauthorized "Basic realm=\"Git\""
  | none => .unauthorized "Basic realm=\"Git\""

/-- A request presents the bearer in the sense of claim C1: as the Bearer
header token, as the username of the Basic credentials, or as the `?token=`
query parameter. -/
def presentsBearer (tok : String) (req : GitRequest) : Prop :=
  req.auth = some (.bearer tok) ∨
  (∃ d, req.auth = some (.basicAuth d) ∧ usernameOf d = tok) ∨
  req.queryToken = some tok

theorem headerToken_eq_some {a : AuthHeaderVal} {s : String}
    (h : headerToken a = some s) :
    a = .bearer s ∨ ∃ d, a = .basicAuth d ∧ usernameOf d = s := by
  cases a with
  | bearer r => left; simp [headerToken] at h; simp [h]
  | basicAuth d => right; exact ⟨d, rfl, by simpa [headerToken] using h⟩
  | otherScheme => simp [headerToken] at h

theorem effectiveToken_presents {tok : String} {req : GitRequest}
    (h : effectiveToken req = some tok) : presentsBearer tok req := by
  unfold effectiveToken at h
  cases ha : req.auth with
  | none =>
      simp [ha] at h
      exact Or.inr (Or.inr h)
  | some a =>
      simp [ha] at h
      cases ht : headerToken a with
      | none =>
          simp [ht] at h
          exact Or.inr (Or.inr h)
      | some s =>
          simp [ht] at h
          by_cases hs : s = ""
          · simp [hs] at h
            exact Or.inr (Or.inr h)
          · simp [hs] at h
            subst h
            rcases headerToken_eq_some ht with h1 | ⟨d, hd, hu⟩
            · exact Or.inl (by simp [ha, h1])
            · exact Or.inr (Or.inl ⟨d, by simp [ha, hd], hu⟩)

/-- C1 (amended): a request that does not present the bearer in any of the
three carriers is answered `401` with `WWW-Authenticate: Basic realm="Git"`
and is not dispatched to the CGI backend; a request whose effective token
(header first, query fallback only when the header yields no non-empty
token) equals the bearer is dispatched. -/
theorem c1_server_auth (tok : String) (req : GitRequest) :
    (¬ presentsBearer tok req →
      handleRequest tok req = .unauthorized "Basic realm=\"Git\"") ∧
    (effectiveToken req = some tok → handleRequest tok req = .dispatched) := by
  constructor
  · intro hnp
    unfold handleRequest
    cases he : effectiveToken req with
    | none => rfl
    | some t =>
        have : t ≠ tok := by
          intro h
          exact hnp (effectiveToken_presents (h ▸ he))
        simp [this]
  · intro he
    simp [handleRequest, he]

theorem c1_server_auth_witness :
    handleRequest "t0k" ⟨none, none⟩ = .unauthorized "Basic realm=\"Git\"" ∧
    handleRequest "t0k" ⟨none, some "t0k"⟩ = .dispatched := by
  refine ⟨(c1_server_auth "t0k" ⟨none, none⟩).1 ?_,
          (c1_server_auth "t0k" ⟨none, some "t0k"⟩).2 (by decide)⟩
  rintro (h | ⟨d, hd, _⟩ | h) <;> simp_all

/-- C1 counterexample: the claim as stated is false — a request that presents
the matching bearer as the `?token=` query parameter, while its header
carries a different non-empty Bearer token, is rejected with `401` instead
of being dispatched. -/
theorem c1_counterexample :
    presentsBearer "goodtok" ⟨some (.bearer "badtok"), some "goodtok"⟩ ∧
    handleRequest "goodtok" ⟨some (.bearer "badtok"), some "goodtok"⟩ =
      .unauthorized "Basic realm=\"Git\"" := by
  refine ⟨Or.inr (Or.inr rfl), by decide⟩

theorem takeWhile_append_stop {p : Char → Bool} :
    ∀ (l : List Char), (∀ c ∈ l, p c = true) → ∀ (x : Char), p x = false →
      ∀ (r : List Char), (l ++ x :: r).takeWhile p = l := by
  intro l
  induction l with
  | nil => intro _ x hx r; simp [List.takeWhile, hx]
  | cons a t ih =>
      intro h x hx r
      have ha : p a = true := h a (by simp)
      simp [List.takeWhile, ha]
      exact ih (fun c hc => h c (by simp [hc])) x hx r

/-- C9: in the Basic-auth path only the username portion of the decoded
credentials is compared against the bearer; any password authenticates. -/
theorem c9_basic_password_ignored (tok password : String)
    (hne : tok ≠ "") (hcolon : ':' ∉ tok.data) :
    handleRequest tok
      ⟨some (.basicAuth (tok ++ ":" ++ password)), none⟩ = .dispatched := by
  have hdata : (tok ++ ":" ++ password).data = tok.data ++ ':' :: password.data := by
    simp [String.data_append]
  have huser : usernameOf (tok ++ ":" ++ password) = tok := by
    unfold usernameOf
    rw [hdata]
    rw [takeWhile_append_stop tok.data
      (fun c hc => by
        simp only [bne_iff_ne, ne_eq, decide_eq_true_eq]
        intro h; exact hcolon (h ▸ hc)) ':' (by simp) password.data]
  have hne' : tok ≠ "" := hne
  simp [handleRequest, effectiveToken, headerToken, huser, hne']

theorem c9_basic_password_ignored_witness :
    handleRequest "tok9" ⟨some (.basicAuth ("tok9" ++ ":" ++ "anypassword")), none⟩ =
      .dispatched :=
  c9_basic_password_ignored "tok9" "anypassword" (by decide) (by decide)

/-! ## Ephemeral Git Server: result extraction (`getChanges`)

Translated from `EphemeralGitServer.getChanges`. The external git world is a
`GitEnv`: each flag records whether the corresponding shell command succeeds
(`execSync` throws on nonzero exit), `commitCount` is the parsed output of
`git rev-list --count HEAD`, `diffOut` the output of
`git diff <root> HEAD`, `showOut` the output of `git show --format="" HEAD`.
The body's outer `try`/`catch` returns `''` on any escaping error; the inner
`try`/`catch` around the diff computation falls back to `git show`. -/

structure GitEnv where
  repoExists : Bool
  workDirExists : Bool
  preCleanOk : Bool
  cloneOk : Bool
  fetchOk : Bool
  logOk : Bool
  countOk : Bool
  commitCount : Nat
  rootOk : Bool
  diffOk : Bool
  diffOut : String
  showOk : Bool
  showOut : String
  postCleanOk : Bool
deriving DecidableEq

def innerDiff (e : GitEnv) : Option String :=
  if !e.countOk then none
  else if e.commitCount > 1 then
    if !e.rootOk then none
    else if !e.diffOk then none
    else some e.diffOut
  else if !e.showOk then none
  else some e.showOut

def getChanges (e : GitEnv) : String :=
  if e.repoExists = false then ""
  else if e.workDirExists && !e.preCleanOk then ""
  else if !e.cloneOk then ""
  else if !e.fetchOk then ""
  else if !e.logOk then ""
  else
    match innerDiff e with
    | some d => if e.postCleanOk then d else ""
    | none =>
        if e.showOk then (if e.postCleanOk then e.showOut else "") else ""

/-- C7: on the success path, `getChanges` returns `git diff <root> HEAD` when
the cloned repository has two or more commits, and the contents of the single
commit (`git show HEAD`) when it has exactly one. -/
theorem c7_getChanges_diff_or_show (e : GitEnv)
    (h1 : e.repoExists = true)
    (h2 : (e.workDirExists && !e.preCleanOk) = false)
    (h3 : e.cloneOk = true) (h4 : e.fetchOk = true) (h5 : e.logOk = true)
    (h6 : e.countOk = true) (h7 : e.postCleanOk = true) :
    (2 ≤ e.commitCount → e.rootOk = true → e.diffOk = true →
        getChanges e = e.diffOut) ∧
    (e.commitCount = 1 → e.showOk = true → getChanges e = e.showOut) := by
  constructor
  · intro hc hr hd
    have hc' : e.commitCount > 1 := hc
    simp [getChanges, innerDiff, h1, h2, h3, h4, h5, h6, h7, hc', hr, hd]
  · intro hc hs
    have hc' : ¬ (e.commitCount > 1) := by omega
    simp [getChanges, innerDiff, h1, h2, h3, h4, h5, h6, h7, hc', hs]


def gitEnvDiff : GitEnv :=
  ⟨true, false, true, true, true, true, true, 2, true, true, "DIFF", true, "SHOW", true⟩

def gitEnvShow : GitEnv :=
  ⟨true, false, true, true, true, true, true, 1, true, true, "DIFF", true, "SHOW", true⟩

def gitEnvFallback : GitEnv :=
  ⟨true, false, true, true, true, true, true, 5, true, false, "DIFF", true, "SHOW", true⟩

theorem c7_getChanges_diff_or_show_witness :
    getChanges gitEnvDiff = "DIFF" ∧ getChanges gitEnvShow = "SHOW" :=
  ⟨(c7_getChanges_diff_or_show gitEnvDiff rfl rfl rfl rfl rfl rfl rfl).1
      (by decide) rfl rfl,
   (c7_getChanges_diff_or_show gitEnvShow rfl rfl rfl rfl rfl rfl rfl).2 rfl rfl⟩

/-- C10 counterexample: the claim that any failing git command makes
`getChanges` return the empty string is false — when computing the diff
fails (`diffOk = false`) but the fallback `git show` succeeds, the show
output is returned, not `""`. -/
theorem c10_counterexample :
    gitEnvFallback.diffOk = false ∧
    getChanges gitEnvFallback = "SHOW" ∧ ("SHOW" : String) ≠ "" := by
  refine ⟨rfl, rfl, by decide⟩

/-- C10 (amended): `getChanges` never propagates an error — it always
returns a string: every outcome is the diff output, the show output, or the
empty string; a missing repository or a failed clone/fetch/log yields `""`,
and so does a failure of the final cleanup `rm` of the throwaway work tree
(the outer catch swallows it); when the diff stage fails (commit count,
root-commit lookup, or the diff itself) the inner catch falls back to
`git show HEAD` and, when that show and the final cleanup succeed, its
output — not `""` — is returned; when the fallback show also fails the
result is `""`. -/
theorem c10_getChanges_total (e : GitEnv) :
    (getChanges e = "" ∨ getChanges e = e.diffOut ∨ getChanges e = e.showOut) ∧
    (e.repoExists = false → getChanges e = "") ∧
    (e.cloneOk = false → getChanges e = "") ∧
    (e.fetchOk = false → getChanges e = "") ∧
    (e.logOk = false → getChanges e = "") ∧
    (e.postCleanOk = false → getChanges e = "") ∧
    (e.showOk = false → (e.countOk = false ∨ e.rootOk = false ∨ e.diffOk = false) →
      getChanges e = "") ∧
    (e.repoExists = true → (e.workDirExists && !e.preCleanOk) = false →
      e.cloneOk = true → e.fetchOk = true → e.logOk = true →
      e.showOk = true → e.postCleanOk = true →
      (e.countOk = false ∨ (1 < e.commitCount ∧ (e.rootOk = false ∨ e.diffOk = false))) →
      getChanges e = e.showOut) := by
  have hinner : innerDiff e = none ∨ innerDiff e = some e.diffOut ∨
      innerDiff e = some e.showOut := by
    cases h1 : e.countOk
    · left; simp [innerDiff, h1]
    · by_cases h2 : e.commitCount > 1
      · cases h3 : e.rootOk
        · left; simp [innerDiff, h1, h2, h3]
        · cases h4 : e.diffOk
          · left; simp [innerDiff, h1, h2, h3, h4]
          · right; left; simp [innerDiff, h1, h2, h3, h4]
      · cases h5 : e.showOk
        · left; simp [innerDiff, h1, h2, h5]
        · right; right; simp [innerDiff, h1, h2, h5]
  refine ⟨?_, ?_, ?_, ?_, ?_, ?_, ?_, ?_⟩
  · unfold getChanges
    split
    · exact Or.inl rfl
    split
    · exact Or.inl rfl
    split
    · exact Or.inl rfl
    split
    · exact Or.inl rfl
    split
    · exact Or.inl rfl
    rcases hinner with h | h | h <;> simp only [h]
    · split
      · split
        · exact Or.inr (Or.inr rfl)
        · exact Or.inl rfl
      · exact Or.inl rfl
    · split
      · exact Or.inr (Or.inl rfl)
      · exact Or.inl rfl
    · split
      · exact Or.inr (Or.inr rfl)
      · exact Or.inl rfl
  · intro h
    unfold getChanges
    simp [h]
  · intro h
    unfold getChanges
    simp [h]
  · intro h
    unfold getChanges
    simp [h]
  · intro h
    unfold getChanges
    simp [h]
  · intro h
    unfold getChanges
    rcases hinner with hi | hi | hi <;> simp [hi, h]
  · intro hs hd
    have hnone : innerDiff e = none := by
      unfold innerDiff
      rcases hd with h | h | h
      · simp [h]
      · by_cases h2 : e.commitCount > 1 <;> cases h1 : e.countOk <;>
          simp [h, h1, h2, hs]
      · by_cases h2 : e.commitCount > 1 <;> cases h1 : e.countOk <;>
          cases h3 : e.rootOk <;> simp [h, h1, h2, h3, hs]
    unfold getChanges
    simp [hnone, hs]
  · intro hr hw hcl hf hlog hs hp hd
    have hnone : innerDiff e = none := by
      rcases hd with h | ⟨hcc, h2⟩
      · simp [innerDiff, h]
      · cases hco : e.countOk
        · simp [innerDiff, hco]
        · rcases h2 with h2 | h2 <;> cases hro : e.rootOk <;>
            simp [innerDiff, hco, hcc, h2, hro]
    unfold getChanges
    simp [hr, hw, hcl, hf, hlog, hnone, hs, hp]

theorem c10_getChanges_total_witness :
    getChanges ⟨false, false, true, true, true, true, true, 2, true, true,
      "DIFF", true, "SHOW", true⟩ = "" ∧
    getChanges gitEnvFallback = "SHOW" ∧
    getChanges ⟨true, false, true, true, true, true, true, 5, true, false,
      "DIFF", true, "SHOW", false⟩ = "" :=
  ⟨(c10_getChanges_total _).2.1 rfl,
   (c10_getChanges_total gitEnvFallback).2.2.2.2.2.2.2 rfl rfl rfl rfl rfl rfl rfl
     (Or.inr ⟨by decide, Or.inr rfl⟩),
   (c10_getChanges_total _).2.2.2.2.2.1 rfl⟩

/-! ## Ephemeral Git Server: input file path sanitization (`initialize`)

Translated from the copy loop of `EphemeralGitServer.initialize`: the
destination of each input file is `path.join(workDir, relativePath)` where
`relativePath = path.relative(process.cwd(), sourcePath)` and the copy loop
first strips leading `../` (or `..\`) components:
`while (relativePath.startsWith('../') || relativePath.startsWith('..\\'))
relativePath = relativePath.substring(3)`.

`path.relative` of a regular file is normalized: `m` leading `..` segments
followed by a non-empty chain of ordinary components whose last entry is the
file's basename; components are non-empty, contain no separator and are not
`..`. Paths are modeled as `List Char` and component lists as
`List (List Char)`. -/

def stripDotDot : List Char → List Char
  | '.' :: '.' :: '/' :: rest => stripDotDot rest
  | '.' :: '.' :: '\\' :: rest => stripDotDot rest
  | l => l

/-- Leading `../` segments of the output of `path.relative`. -/
def dotDots : Nat → List Char
  | 0 => []
  | n + 1 => '.' :: '.' :: '/' :: dotDots n

/-- Joining path components with `/`. -/
def joinComps (cs : List (List Char)) : List Char :=
  (cs.intersperse ['/']).flatten

/-- Resolution of a component list against a stack, popping one directory for
each `..` component; the claim's notion of where a path lands. -/
def normComps (acc : List (List Char)) : List (List Char) → List (List Char)
  | [] => acc
  | c :: rest =>
      if c = ['.', '.'] then normComps acc.dropLast rest
      else normComps (acc ++ [c]) rest

/-- A well-formed relative-path component: non-empty, no separators, not
`..`. -/
def goodComp (c : List Char) : Prop :=
  c ≠ [] ∧ '/' ∉ c ∧ '\\' ∉ c ∧ c ≠ ['.', '.']

theorem stripDotDot_eq_self {l : List Char}
    (h : ∀ rest, l ≠ '.' :: '.' :: '/' :: rest ∧ l ≠ '.' :: '.' :: '\\' :: rest) :
    stripDotDot l = l := by
  match l, h with
  | [], _ => rfl
  | [a], _ => unfold stripDotDot; split <;> simp_all
  | [a, b], _ => unfold stripDotDot; split <;> simp_all
  | a :: b :: c :: t, h =>
      unfold stripDotDot
      split
      · rename_i heq; exact absurd heq (h _).1
      · rename_i heq; exact absurd heq (h _).2
      · rfl

theorem joinComps_not_dotdot_slash {c₀ : List Char} {cs : List (List Char)}
    (hg : goodComp c₀) :
    ∀ rest, joinComps (c₀ :: cs) ≠ '.' :: '.' :: '/' :: rest ∧
      joinComps (c₀ :: cs) ≠ '.' :: '.' :: '\\' :: rest := by
  intro rest
  obtain ⟨hne, hs, hb, hdd⟩ := hg
  have hjoin : ∃ t, joinComps (c₀ :: cs) = c₀ ++ t ∧
      (t = [] ∨ ∃ t', t = '/' :: t') := by
    cases cs with
    | nil => exact ⟨[], by simp [joinComps], Or.inl rfl⟩
    | cons d ds =>
        refine ⟨'/' :: (joinComps (d :: ds)), ?_, Or.inr ⟨_, rfl⟩⟩
        simp [joinComps, List.intersperse]
  obtain ⟨t, hj, ht⟩ := hjoin
  rw [hj]
  match c₀, hne, hs, hb, hdd with
  | [a], _, _, _, _ =>
      rcases ht with h | ⟨t', h⟩ <;> subst h <;>
        constructor <;> intro h <;> simp at h
  | [a, b], _, hs, hb, hdd =>
      constructor <;> intro h <;> simp at h <;>
        exact hdd (by simp [h.1, h.2.1])
  | a :: b :: c :: u, _, hs, hb, _ =>
      constructor <;> intro h <;> simp at h <;>
        [exact hs (by simp [h.2.2.1]); exact hb (by simp [h.2.2.1])]

theorem stripDotDot_dotDots (m : Nat) (l : List Char) :
    stripDotDot (dotDots m ++ l) = stripDotDot l := by
  induction m with
  | zero => simp [dotDots]
  | succ n ih => simpa [dotDots, stripDotDot] using ih

theorem normComps_no_dotdot :
    ∀ (cs acc : List (List Char)), ['.', '.'] ∉ cs →
      normComps acc cs = acc ++ cs := by
  intro cs
  induction cs with
  | nil => intro acc _; simp [normComps]
  | cons c rest ih =>
      intro acc h
      have hc : c ≠ ['.', '.'] := fun hc => h (by simp [hc])
      have hrest : ['.', '.'] ∉ rest := fun hr => h (by simp [hr])
      simp [normComps, hc, ih _ hrest]

/-- C8: for every input file, the destination path inside the work tree is
the `cwd`-relative path with all leading `..` segments removed: the
sanitization loop strips exactly the `m` leading `../` of the normalized
relative path and leaves the ordinary components untouched, and resolving
the work directory's components followed by those components never climbs
out of the work directory (its components stay a prefix). -/
theorem c8_sanitize_no_escape (m : Nat) (c₀ : List Char)
    (cs w : List (List Char))
    (hg : goodComp c₀) (hgs : ∀ c ∈ cs, goodComp c) :
    stripDotDot (dotDots m ++ joinComps (c₀ :: cs)) = joinComps (c₀ :: cs) ∧
    normComps w (c₀ :: cs) = w ++ (c₀ :: cs) ∧
    w <+: normComps w (c₀ :: cs) := by
  have hnd : ['.', '.'] ∉ c₀ :: cs := by
    intro h
    rcases List.mem_cons.mp h with h | h
    · exact hg.2.2.2 h.symm
    · exact (hgs _ h).2.2.2 rfl
  have h2 : normComps w (c₀ :: cs) = w ++ (c₀ :: cs) := normComps_no_dotdot _ _ hnd
  refine ⟨?_, h2, ?_⟩
  · rw [stripDotDot_dotDots]
    exact stripDotDot_eq_self (joinComps_not_dotdot_slash hg)
  · rw [h2]; exact ⟨c₀ :: cs, rfl⟩

theorem c8_sanitize_no_escape_witness :
    stripDotDot (dotDots 2 ++ joinComps (['s','r','c'] :: [['a','.','t','s']])) =
      joinComps (['s','r','c'] :: [['a','.','t','s']]) ∧
    normComps [['w','o','r','k']] (['s','r','c'] :: [['a','.','t','s']]) =
      [['w','o','r','k']] ++ (['s','r','c'] :: [['a','.','t','s']]) ∧
    [['w','o','r','k']] <+: normComps [['w','o','r','k']]
      (['s','r','c'] :: [['a','.','t','s']]) :=
  c8_sanitize_no_escape 2 ['s','r','c'] [['a','.','t','s']] [['w','o','r','k']]
    (by refine ⟨by decide, by decide, by decide, by decide⟩)
    (by intro c hc; simp at hc; subst hc;
        exact ⟨by decide, by decide, by decide, by decide⟩)

/-! ## Token vault: sealed envelope layout (`storeToken`)

Translated from `KeycloakManager.storeToken` and `OAuthManager.storeToken`:
both serialize the token payload to JSON, draw `iv = crypto.randomBytes(16)`,
create an `aes-256-gcm` cipher with the vault key and that iv, and persist
`{iv, authTag, data}`. `randomBytes` is modeled as reading `n` bytes from a
byte source; the cipher is a parameter whose `authTag` has the Node GCM
default length of 16 bytes. -/

def randomBytes (rng : Nat → Nat) (n : Nat) : List Nat :=
  (List.range n).map rng

structure GcmCipher where
  encryptHex : String → String
  authTag : List Nat
  authTagLen16 : authTag.length = 16

structure SealedEnvelope where
  iv : List Nat
  authTag : List Nat
  data : String

/-- `KeycloakManager.storeToken`: seal the serialized Keycloak identity
token. `gcm key iv` models `crypto.createCipheriv('aes-256-gcm', key, iv)`. -/
def keycloakStoreToken (rng : Nat → Nat)
    (gcm : List Nat → List Nat → GcmCipher)
    (key : List Nat) (tokenJson : String) : SealedEnvelope :=
  let iv := randomBytes rng 16
  let cipher := gcm key iv
  { iv := iv, authTag := cipher.authTag, data := cipher.encryptHex tokenJson }

/-- `OAuthManager.storeToken`: seal the serialized array of tool
credentials; identical envelope construction. -/
def oauthStoreToken (rng : Nat → Nat)
    (gcm : List Nat → List Nat → GcmCipher)
    (key : List Nat) (tokensJson : String) : SealedEnvelope :=
  let iv := randomBytes rng 16
  let cipher := gcm key iv
  { iv := iv, authTag := cipher.authTag, data := cipher.encryptHex tokensJson }

def trivGcm : List Nat → List Nat → GcmCipher :=
  fun _ _ => { encryptHex := id, authTag := List.replicate 16 0,
               authTagLen16 := by simp }

/-- C2 counterexample: the claim that the stored IV is 12 bytes long is false
— `storeToken` draws `crypto.randomBytes(16)`, so both managers persist a
16-byte IV. -/
theorem c2_counterexample :
    (keycloakStoreToken (fun _ => 0) trivGcm [] "{}").iv.length ≠ 12 ∧
    (oauthStoreToken (fun _ => 0) trivGcm [] "[]").iv.length ≠ 12 := by
  constructor <;> decide

/-- C2 (amended): every sealed envelope the vault persists carries a 16-byte
IV and a 16-byte AES-256-GCM auth tag. -/
theorem c2_envelope_sizes (rng : Nat → Nat)
    (gcm : List Nat → List Nat → GcmCipher) (key : List Nat) (s t : String) :
    (keycloakStoreToken rng gcm key s).iv.length = 16 ∧
    (keycloakStoreToken rng gcm key s).authTag.length = 16 ∧
    (oauthStoreToken rng gcm key t).iv.length = 16 ∧
    (oauthStoreToken rng gcm key t).authTag.length = 16 := by
  refine ⟨?_, (gcm key (randomBytes rng 16)).authTagLen16, ?_,
      (gcm key (randomBytes rng 16)).authTagLen16⟩ <;>
    simp [keycloakStoreToken, oauthStoreToken, randomBytes]

/-! ## Sandbox executor: `wipeEncryptionKey`

Translated from the executor's `wipeEncryptionKey`:
`const keyBuffer = Buffer.from(ENCRYPTION_KEY); keyBuffer.fill(0);`.
`Buffer.from(string)` allocates a fresh buffer holding a copy of the
string's bytes; filling that buffer cannot alter the immutable
`ENCRYPTION_KEY` string. Memory is modeled as the key string's bytes plus
the set of live heap buffers. -/

structure ExecutorMemory where
  encryptionKey : List Nat
  buffers : List (List Nat)
deriving DecidableEq

/-- `Buffer.from(bytes)`: a fresh copy of the bytes. -/
def bufferFrom (bytes : List Nat) : List Nat := bytes

def wipeEncryptionKey (m : ExecutorMemory) : ExecutorMemory :=
  let keyBuffer := bufferFrom m.encryptionKey
  let zeroed := keyBuffer.map (fun _ => 0)
  { m with buffers := zeroed :: m.buffers }

/-- C3: contrary to its own comment (`Overwrite key variable with zeros`),
`wipeEncryptionKey` zeroes only a freshly allocated copy of the key; the
`ENCRYPTION_KEY` value itself survives in the executor's memory on every
path, as evaluated here on a concrete key. -/
theorem c3_wipe_leaves_key :
    (∀ m : ExecutorMemory,
        (wipeEncryptionKey m).encryptionKey = m.encryptionKey) ∧
    (wipeEncryptionKey ⟨[171, 205], []⟩).encryptionKey = [171, 205] ∧
    ([171, 205] : List Nat) ≠ List.replicate 2 0 := by
  exact ⟨fun m => rfl, rfl, by decide⟩

/-! ## Requester review: automatic patch apply (`reviewSolution`, AI mode)

Translated from the auto-apply branch of `RequesterCommand.reviewSolution`:
`git apply --check` then `git apply` inside a `try`; on success the patch
file is deleted and a confirmation is sent; in the `catch` the patch file is
kept, manual-apply instructions are printed, and the same
`confirmation{accepted:true, credits:2.5}` is still sent; `task_complete`
follows in both cases. -/

structure Confirmation where
  accepted : Bool
  credits : ℚ
deriving DecidableEq

structure ReviewOutcome where
  patchDeleted : Bool
  manualHintShown : Bool
  confirmation : Option Confirmation
  taskCompleteSent : Bool
deriving DecidableEq

def autoApplyReview (applyCheckOk applyOk : Bool) : ReviewOutcome :=
  if applyCheckOk && applyOk then
    { patchDeleted := true, manualHintShown := false,
      confirmation := some { accepted := true, credits := 5 / 2 },
      taskCompleteSent := true }
  else
    { patchDeleted := false, manualHintShown := true,
      confirmation := some { accepted := true, credits := 5 / 2 },
      taskCompleteSent := true }

/-- C5: when `git apply --check` or `git apply` fails, the saved patch file
is not deleted, the user is shown manual-apply instructions, and the
provider still receives `confirmation{accepted:true, credits:2.5}`. -/
theorem c5_patch_conflict_still_paid (applyCheckOk applyOk : Bool)
    (h : applyCheckOk = false ∨ applyOk = false) :
    (autoApplyReview applyCheckOk applyOk).patchDeleted = false ∧
    (autoApplyReview applyCheckOk applyOk).manualHintShown = true ∧
    (autoApplyReview applyCheckOk applyOk).confirmation =
      some { accepted := true, credits := 5 / 2 } ∧
    (autoApplyReview applyCheckOk applyOk).taskCompleteSent = true := by
  have hb : (applyCheckOk && applyOk) = false := by
    rcases h with h | h <;> simp [h]
  simp [autoApplyReview, hb]

theorem c5_patch_conflict_still_paid_witness :
    (autoApplyReview true false).patchDeleted = false ∧
    (autoApplyReview true false).manualHintShown = true ∧
    (autoApplyReview true false).confirmation =
      some { accepted := true, credits := 5 / 2 } ∧
    (autoApplyReview true false).taskCompleteSent = true :=
  c5_patch_conflict_still_paid true false (Or.inr rfl)

/-! ## Sandbox executor: commit message (`extractCommitSummary`, `pushResults`)

Translated from `extractCommitSummary` in the executor. Strings are modeled
as `List Char`; each JS `replace` call is implemented with the semantics of
the regex it uses, including JS word boundaries (`\b`, over the word class
`[A-Za-z0-9_]`), greedy-with-backtracking repetition, and left-to-right
alternation. -/

def jsWs (c : Char) : Bool := c.isWhitespace

/-- JS `String.prototype.trim`. -/
def trimL (l : List Char) : List Char :=
  ((l.dropWhile jsWs).reverse.dropWhile jsWs).reverse

/-- JS `split('\n')`. -/
def splitLines (l : List Char) : List (List Char) :=
  l.splitOn '\n'

def startsWithL (pre l : List Char) : Bool := pre.isPrefixOf l

/-- Matching of `^\d+\. ` for the list-marker replace. -/
def dropNumDot (l : List Char) : Option (List Char) :=
  let ds := l.takeWhile Char.isDigit
  if ds.length = 0 then none
  else
    match l.drop ds.length with
    | '.' :: ' ' :: rest => some rest
    | _ => none

/-- `replace(/^(# |## |### |\* |- |\d+\. )/, '')`: alternatives tried left to
right, anchored, applied once. -/
def stripMarker (l : List Char) : List Char :=
  if startsWithL ['#', ' '] l then l.drop 2
  else if startsWithL ['#', '#', ' '] l then l.drop 3
  else if startsWithL ['#', '#', '#', ' '] l then l.drop 4
  else if startsWithL ['*', ' '] l then l.drop 2
  else if startsWithL ['-', ' '] l then l.drop 2
  else
    match dropNumDot l with
    | some rest => rest
    | none => l

def sepChar (c : Char) : Bool :=
  c.isWhitespace || c == ',' || c == ':' || c == '!' || c == '.' || c == '-'

def apos : Char := Char.ofNat 39

/-- Alternatives of `^(Sure|OK|Alright|Here|Let me|I'?ll|I've|I have|Done)`
in the order the regex engine tries them, lowercased for the `i` flag; the
greedy `'?` of `I'?ll` tries the apostrophe variant first. -/
def fillerAlts : List (List Char) :=
  ["sure".data, "ok".data, "alright".data, "here".data, "let me".data,
   'i' :: apos :: "ll".data, "ill".data, 'i' :: apos :: "ve".data,
   "i have".data, "done".data]

/-- `replace(/^(…)[\s,:!.-]+/i, '')`: an alternative succeeds only when at
least one separator follows; otherwise the engine backtracks into the next
alternative. -/
def stripOneFiller : List (List Char) → List Char → List Char
  | [], l => l
  | alt :: alts, l =>
      if startsWithL alt (l.map Char.toLower) then
        let rest := l.drop alt.length
        let seps := rest.takeWhile sepChar
        if seps.length > 0 then rest.drop seps.length
        else stripOneFiller alts l
      else stripOneFiller alts l

def stripFiller (l : List Char) : List Char := stripOneFiller fillerAlts l

/-- JS `\w`: `[A-Za-z0-9_]`. -/
def isWordChar (c : Char) : Bool := c.isAlphanum || c == '_'

/-- Character class `[a-f0-9]` of the first redaction alternative. -/
def isHexLow (c : Char) : Bool := ('a' ≤ c && c ≤ 'f') || c.isDigit

/-- Character class `[A-Za-z0-9_-]` of the second redaction alternative. -/
def isTokChar (c : Char) : Bool := c.isAlphanum || c == '_' || c == '-'

def optWord : Option Char → Bool
  | some c => isWordChar c
  | none => false

/-- JS `\b`: word-ness differs across the position. -/
def boundaryB (a b : Option Char) : Bool := optWord a != optWord b

/-- Greedy backtracking for `X{minLen,}\b` starting from candidate length
`n` (the maximal run) down to `minLen`: the first length whose end sits on a
word boundary wins. -/
def findGreedy (l : List Char) (minLen : Nat) : Nat → Option Nat
  | 0 => none
  | n + 1 =>
      if n + 1 < minLen then none
      else if boundaryB l[n]? l[n + 1]? then some (n + 1)
      else findGreedy l minLen n

/-- Attempt of `\b([a-f0-9]{32,}|[A-Za-z0-9_-]{20,})\b` at the current
position, `prev` being the previous character of the subject string. -/
def matchRedact (prev : Option Char) (l : List Char) : Option Nat :=
  if !boundaryB prev l.head? then none
  else
    match findGreedy l 32 (l.takeWhile isHexLow).length with
    | some n => some n
    | none => findGreedy l 20 (l.takeWhile isTokChar).length

def redactedChars : List Char := "[REDACTED]".data

/-- Global replace with `[REDACTED]`; the fuel is the subject length (each
step consumes at least one character). -/
def redactScan : Nat → Option Char → List Char → List Char
  | 0, _, _ => []
  | _ + 1, _, [] => []
  | fuel + 1, prev, c :: rest =>
      match matchRedact prev (c :: rest) with
      | some n =>
          redactedChars ++ redactScan fuel ((c :: rest)[n - 1]?) ((c :: rest).drop n)
      | none => c :: redactScan fuel (some c) rest

def redactL (l : List Char) : List Char := redactScan l.length none l

/-- Attempt of `https?:\/\/[^\s]+` at the current position. -/
def matchUrl (l : List Char) : Option Nat :=
  if startsWithL "https://".data l then
    let k := ((l.drop 8).takeWhile (fun c => !c.isWhitespace)).length
    if k > 0 then some (8 + k) else none
  else if startsWithL "http://".data l then
    let k := ((l.drop 7).takeWhile (fun c => !c.isWhitespace)).length
    if k > 0 then some (7 + k) else none
  else none

def urlChars : List Char := "[URL]".data

def urlScan : Nat → List Char → List Char
  | 0, _ => []
  | _ + 1, [] => []
  | fuel + 1, c :: rest =>
      match matchUrl (c :: rest) with
      | some n => urlChars ++ urlScan fuel ((c :: rest).drop n)
      | none => c :: urlScan fuel rest

def urlL (l : List Char) : List Char := urlScan l.length l

def execCompleteChars : List Char := "Execution complete".data

/-- `extractCommitSummary` on `List Char`, step for step. -/
def extractCommitSummaryL (aiOutput : List Char) : List Char :=
  if (trimL aiOutput).length = 0 then execCompleteChars
  else
    let lines := (splitLines (trimL aiOutput)).filter
      (fun line => 10 < (trimL line).length)
    let summary := lines.headD execCompleteChars
    let summary := trimL (stripFiller (stripMarker summary))
    let summary := urlL (redactL summary)
    let summary :=
      if 200 < summary.length then summary.take 197 ++ "...".data else summary
    if summary.length < 5 then execCompleteChars else summary

def extractCommitSummary (aiOutput : String) : String :=
  ⟨extractCommitSummaryL aiOutput.data⟩

/-- Commit message built in `pushResults`. -/
def commitMessageFor (tool aiOutput : String) : String :=
  "HokiPoki " ++ tool ++ ": " ++ extractCommitSummary aiOutput

/-- A string contains some substring matching `[A-Za-z0-9_-]{20,}`. -/
def hasTokenRun : List Char → Bool
  | [] => false
  | c :: rest =>
      if 20 ≤ ((c :: rest).takeWhile isTokChar).length then true
      else hasTokenRun rest

def c6Input : String := "update -aaaaaaaaaaaaaaaaaaa done here now"

/-- C6 counterexample: the claim that every substring matching
`[A-Za-z0-9_-]{20,}` is replaced by `[REDACTED]` is false — the redaction
regex requires word boundaries, so the 20-character run
`-aaaaaaaaaaaaaaaaaaa` (a hyphen followed by 19 word characters) survives:
the summary of this output is the output itself and still contains a
20-character `[A-Za-z0-9_-]` run. -/
theorem c6_counterexample :
    extractCommitSummary c6Input = c6Input ∧
    hasTokenRun (extractCommitSummary c6Input).data = true := by
  constructor <;> decide

theorem list_length_le_200 (t : List Char) :
    (if (if 200 < t.length then t.take 197 ++ "...".data else t).length < 5
     then execCompleteChars
     else if 200 < t.length then t.take 197 ++ "...".data else t).length ≤ 200 := by
  by_cases h1 : 200 < t.length
  · simp only [if_pos h1]
    split
    · simp [execCompleteChars]
    · simp [List.length_take]
  · simp only [if_neg h1]
    split
    · simp [execCompleteChars]
    · omega

theorem extractCommitSummaryL_le_200 (l : List Char) :
    (extractCommitSummaryL l).length ≤ 200 := by
  unfold extractCommitSummaryL
  by_cases h0 : (trimL l).length = 0
  · simp [h0, execCompleteChars]
  · simp only [h0, if_false]
    exact list_length_le_200 _

/-- C6 (amended): the commit message is
`HokiPoki <tool>: <extractCommitSummary output>`, where the summary is the
first meaningful line of the output with markers and filler stripped, token
runs redacted exactly where the word-boundary regex
`\b([a-f0-9]{32,}|[A-Za-z0-9_-]{20,})\b` matches (a run of
`[A-Za-z0-9_-]{20,}` not delimited by word boundaries can survive), URLs
matching `https?://[^\s]+` replaced by `[URL]`, and the result truncated so
that the summary never exceeds 200 characters. -/
theorem c6_commit_message (tool out : String) :
    commitMessageFor tool out =
      "HokiPoki " ++ tool ++ ": " ++ extractCommitSummary out ∧
    (extractCommitSummary out).length ≤ 200 :=
  ⟨rfl, extractCommitSummaryL_le_200 out.data⟩

/-! ## Credential double-encoding (adapter ↔ sandbox executor)

`OAuthManager.authenticateCodexFromFile` stores
`JSON.stringify(JSON.stringify(authData.tokens))` as the opaque blob; the
executor's `executeAITool` reconstructs the object with exactly two
`JSON.parse` calls. `JSON.stringify`/`JSON.parse` are modeled over a JSON
value type whose numbers are integers (the credential documents carry
integer timestamps; JS float printing is not modeled): `stringifyV` emits
the compact serialization with the JSON.stringify escape set, `parseVal` is
a fueled JSON reader accepting the JSON grammar (integer numerals). -/

mutual
inductive Json where
  | null
  | bool (b : Bool)
  | num (n : Int)
  | str (s : String)
  | arr (elems : JsonList)
  | obj (fields : JsonFields)
inductive JsonList where
  | nil
  | cons (hd : Json) (tl : JsonList)
inductive JsonFields where
  | nil
  | cons (key : String) (val : Json) (tl : JsonFields)
end

def hexDigitChar (n : Nat) : Char :=
  if n < 10 then Char.ofNat (48 + n) else Char.ofNat (87 + n)

/-- JSON.stringify escaping for one character: `"` and `\` are escaped, the
control characters `\b \t \n \f \r` get their short escapes, the remaining
controls get `\u00XX`, everything else passes through. -/
def encodeChar (c : Char) : List Char :=
  if c = '"' then ['\\', '"']
  else if c = '\\' then ['\\', '\\']
  else if c = Char.ofNat 8 then ['\\', 'b']
  else if c = Char.ofNat 9 then ['\\', 't']
  else if c = Char.ofNat 10 then ['\\', 'n']
  else if c = Char.ofNat 12 then ['\\', 'f']
  else if c = Char.ofNat 13 then ['\\', 'r']
  else if c.toNat < 32 then
    ['\\', 'u', '0', '0', hexDigitChar (c.toNat / 16), hexDigitChar (c.toNat % 16)]
  else [c]

def encodeStr (s : List Char) : List Char :=
  '"' :: ((s.map encodeChar).flatten ++ ['"'])

def digitChar (n : Nat) : Char := Char.ofNat (48 + n)

def natChars (n : Nat) : List Char :=
  if n < 10 then [digitChar n]
  else natChars (n / 10) ++ [digitChar (n % 10)]
decreasing_by exact Nat.div_lt_self (by omega) (by omega)

def intChars (n : Int) : List Char :=
  if n < 0 then '-' :: natChars (-n).toNat else natChars n.toNat

mutual
def stringifyV : Json → List Char
  | .null => "null".data
  | .bool true => "true".data
  | .bool false => "false".data
  | .num n => intChars n
  | .str s => encodeStr s.data
  | .arr es => '[' :: (stringifyElems es ++ [']'])
  | .obj fs => '{' :: (stringifyFields fs ++ ['}'])
def stringifyElems : JsonList → List Char
  | .nil => []
  | .cons v .nil => stringifyV v
  | .cons v (.cons w rest) =>
      stringifyV v ++ ',' :: stringifyElems (.cons w rest)
def stringifyFields : JsonFields → List Char
  | .nil => []
  | .cons k v .nil => encodeStr k.data ++ ':' :: stringifyV v
  | .cons k v (.cons k2 v2 rest) =>
      encodeStr k.data ++ ':' :: stringifyV v ++
        ',' :: stringifyFields (.cons k2 v2 rest)
end

def jsWsChar (c : Char) : Bool := c == ' ' || c == '\t' || c == '\n' || c == '\r'

def skipWs (l : List Char) : List Char := l.dropWhile jsWsChar

def unescape (c : Char) : Option Char :=
  if c = '"' then some '"'
  else if c = '\\' then some '\\'
  else if c = '/' then some '/'
  else if c = 'b' then some (Char.ofNat 8)
  else if c = 'f' then some (Char.ofNat 12)
  else if c = 'n' then some (Char.ofNat 10)
  else if c = 'r' then some (Char.ofNat 13)
  else if c = 't' then some (Char.ofNat 9)
  else none

def hexVal (c : Char) : Option Nat :=
  if 48 ≤ c.toNat ∧ c.toNat ≤ 57 then some (c.toNat - 48)
  else if 97 ≤ c.toNat ∧ c.toNat ≤ 102 then some (c.toNat - 87)
  else if 65 ≤ c.toNat ∧ c.toNat ≤ 70 then some (c.toNat - 55)
  else none

/-- JSON string-literal body reader (after the opening quote), returning the
decoded characters and the input after the closing quote. -/
def parseStrBody : List Char → Option (List Char × List Char)
  | [] => none
  | c :: rest =>
      if c = '"' then some ([], rest)
      else if c = '\\' then
        match rest with
        | [] => none
        | e :: rest2 =>
            if e = 'u' then
              match rest2 with
              | h1 :: h2 :: h3 :: h4 :: rest3 =>
                  match hexVal h1, hexVal h2, hexVal h3, hexVal h4 with
                  | some a, some b, some c2, some d =>
                      (parseStrBody rest3).map (fun p =>
                        (Char.ofNat (((a * 16 + b) * 16 + c2) * 16 + d) :: p.1, p.2))
                  | _, _, _, _ => none
              | _ => none
            else
              match unescape e with
              | some ch => (parseStrBody rest2).map (fun p => (ch :: p.1, p.2))
              | none => none
      else (parseStrBody rest).map (fun p => (c :: p.1, p.2))

def digitsVal (l : List Char) : Nat :=
  l.foldl (fun acc c => acc * 10 + (c.toNat - 48)) 0

def parseNatL (l : List Char) : Option (Nat × List Char) :=
  let ds := l.takeWhile Char.isDigit
  if ds.length = 0 then none else some (digitsVal ds, l.drop ds.length)

def parseIntL (l : List Char) : Option (Int × List Char) :=
  match l with
  | '-' :: rest => (parseNatL rest).map (fun p => (-(p.1 : Int), p.2))
  | _ => (parseNatL l).map (fun p => ((p.1 : Int), p.2))

mutual
def parseVal : Nat → List Char → Option (Json × List Char)
  | 0, _ => none
  | fuel + 1, l =>
      let l1 := skipWs l
      if l1.take 4 = "null".data then some (.null, l1.drop 4)
      else if l1.take 4 = "true".data then some (.bool true, l1.drop 4)
      else if l1.take 5 = "false".data then some (.bool false, l1.drop 5)
      else
        match l1 with
        | '"' :: rest => (parseStrBody rest).map (fun p => (.str ⟨p.1⟩, p.2))
        | '[' :: rest =>
            match skipWs rest with
            | ']' :: r2 => some (.arr .nil, r2)
            | l2 => (parseElems fuel l2).map (fun p => (.arr p.1, p.2))
        | '{' :: rest =>
            match skipWs rest with
            | '}' :: r2 => some (.obj .nil, r2)
            | l2 => (parseFields fuel l2).map (fun p => (.obj p.1, p.2))
        | _ => (parseIntL l1).map (fun p => (.num p.1, p.2))
def parseElems : Nat → List Char → Option (JsonList × List Char)
  | 0, _ => none
  | fuel + 1, l =>
      match parseVal fuel l with
      | none => none
      | some (v, r) =>
          match skipWs r with
          | ',' :: r2 => (parseElems fuel r2).map (fun p => (.cons v p.1, p.2))
          | ']' :: r2 => some (.cons v .nil, r2)
          | _ => none
def parseFields : Nat → List Char → Option (JsonFields × List Char)
  | 0, _ => none
  | fuel + 1, l =>
      match skipWs l with
      | '"' :: rest =>
          match parseStrBody rest with
          | none => none
          | some (k, r) =>
              match skipWs r with
              | ':' :: r2 =>
                  match parseVal fuel r2 with
                  | none => none
                  | some (v, r3) =>
                      match skipWs r3 with
                      | ',' :: r4 =>
                          (parseFields fuel r4).map
                            (fun p => (.cons ⟨k⟩ v p.1, p.2))
                      | '}' :: r4 => some (.cons ⟨k⟩ v .nil, r4)
                      | _ => none
              | _ => none
      | _ => none
end

/-- Model of `JSON.parse`: parse one value and require only whitespace to
remain; the fuel is the input length plus one, enough for any value the
input can denote. -/
def jsonParse (s : String) : Option Json :=
  match parseVal (s.length + 1) s.data with
  | some (v, rest) => if skipWs rest = [] then some v else none
  | none => none

/-- Adapter side: `JSON.stringify(JSON.stringify(tokens))`. -/
def doubleEncode (d : Json) : String :=
  ⟨stringifyV (.str ⟨stringifyV d⟩)⟩

/-- Executor side: two `JSON.parse` calls; the first must yield a string. -/
def doubleDecode (blob : String) : Option Json :=
  match jsonParse blob with
  | some (.str s) => jsonParse s
  | _ => none

theorem charOfNat_toNat {n : Nat} (h : n < 128) : (Char.ofNat n).toNat = n := by
  have hv : n.isValidChar := Or.inl (by omega)
  simp [Char.ofNat, hv, Char.ofNatAux, Char.toNat, UInt32.toNat]

theorem isDigit_iff_toNat (c : Char) :
    c.isDigit = (decide (48 ≤ c.toNat) && decide (c.toNat ≤ 57)) := by
  simp only [Char.isDigit]
  congr 1

theorem isDigit_toNat_of {c : Char} (h : c.isDigit = true) :
    48 ≤ c.toNat ∧ c.toNat ≤ 57 := by
  rw [isDigit_iff_toNat] at h
  simpa using h

theorem takeWhile_all {p : Char → Bool} :
    ∀ (l : List Char), (∀ c ∈ l, p c = true) → l.takeWhile p = l := by
  intro l
  induction l with
  | nil => intro _; rfl
  | cons a t ih =>
      intro h
      simp [List.takeWhile, h a (by simp)]
      exact fun c hc => h c (by simp [hc])

theorem hexVal_hexDigitChar {d : Nat} (h : d < 16) :
    hexVal (hexDigitChar d) = some d := by
  interval_cases d <;> decide

theorem digitChar_toNat {d : Nat} (h : d < 10) :
    (digitChar d).toNat = 48 + d := by
  unfold digitChar
  exact charOfNat_toNat (by omega)

theorem digitChar_isDigit {d : Nat} (h : d < 10) :
    (digitChar d).isDigit = true := by
  rw [isDigit_iff_toNat, digitChar_toNat h]
  simp
  omega

theorem natChars_ne_nil (n : Nat) : natChars n ≠ [] := by
  rw [natChars]
  split
  · simp
  · simp

theorem natChars_digits (n : Nat) : ∀ c ∈ natChars n, c.isDigit = true := by
  induction n using Nat.strong_induction_on with
  | _ n ih =>
      rw [natChars]
      split
      · intro c hc
        simp at hc
        subst hc
        exact digitChar_isDigit (by omega)
      · rename_i h10
        intro c hc
        simp at hc
        rcases hc with hc | hc
        · exact ih (n / 10) (Nat.div_lt_self (by omega) (by omega)) c hc
        · subst hc
          exact digitChar_isDigit (Nat.mod_lt _ (by omega))

theorem digitsVal_append_digit (l : List Char) (c : Char) :
    digitsVal (l ++ [c]) = digitsVal l * 10 + (c.toNat - 48) := by
  simp [digitsVal, List.foldl_append]

theorem digitsVal_natChars (n : Nat) : digitsVal (natChars n) = n := by
  induction n using Nat.strong_induction_on with
  | _ n ih =>
      rw [natChars]
      split
      · rename_i h10
        simp [digitsVal, digitChar_toNat h10]
      · rename_i h10
        rw [digitsVal_append_digit, ih (n / 10) (Nat.div_lt_self (by omega) (by omega)),
          digitChar_toNat (Nat.mod_lt _ (by omega))]
        omega

/-- A continuation that cannot extend a numeral: its head is not a digit. -/
def noDigitHead (rest : List Char) : Prop :=
  ∀ c, rest.head? = some c → c.isDigit = false

theorem parseNatL_natChars (n : Nat) (rest : List Char) (hrest : noDigitHead rest) :
    parseNatL (natChars n ++ rest) = some (n, rest) := by
  have hds : (natChars n ++ rest).takeWhile Char.isDigit = natChars n := by
    cases rest with
    | nil => rw [List.append_nil]; exact takeWhile_all _ (natChars_digits n)
    | cons r rs =>
        exact takeWhile_append_stop _ (natChars_digits n) r
          (hrest r rfl) rs
  have hne := natChars_ne_nil n
  unfold parseNatL
  rw [hds]
  simp only [List.length_eq_zero]
  rw [if_neg hne, digitsVal_natChars, List.drop_left]

theorem natChars_head_not_minus (n : Nat) :
    ∃ c t, natChars n = c :: t ∧ c.isDigit = true := by
  cases h : natChars n with
  | nil => exact absurd h (natChars_ne_nil n)
  | cons c t =>
      exact ⟨c, t, rfl, natChars_digits n c (by rw [h]; simp)⟩

theorem parseIntL_intChars (n : Int) (rest : List Char) (hrest : noDigitHead rest) :
    parseIntL (intChars n ++ rest) = some (n, rest) := by
  unfold intChars
  by_cases hn : n < 0
  · rw [if_pos hn]
    have hred : parseIntL ('-' :: (natChars (-n).toNat ++ rest)) =
        (parseNatL (natChars (-n).toNat ++ rest)).map
          (fun p => (-(p.1 : Int), p.2)) := rfl
    show parseIntL ('-' :: (natChars (-n).toNat ++ rest)) = _
    rw [hred, parseNatL_natChars _ _ hrest]
    have h0 : (0 : Int) ≤ -n := by omega
    simp [Int.toNat_of_nonneg h0]
  · rw [if_neg hn]
    obtain ⟨c, t, hct, hcd⟩ := natChars_head_not_minus n.toNat
    rw [hct]
    show parseIntL (c :: (t ++ rest)) = _
    have hcm : c ≠ '-' := by
      intro he
      rw [he] at hcd
      exact absurd hcd (by decide)
    unfold parseIntL
    split
    · rename_i heq
      injection heq with h1 h2
      exact absurd h1 hcm
    · rw [show c :: (t ++ rest) = (c :: t) ++ rest from rfl, ← hct,
        parseNatL_natChars _ _ hrest]
      simp [Int.toNat_of_nonneg (show (0 : Int) ≤ n by omega)]

theorem parseStrBody_quote (M : List Char) :
    parseStrBody ('"' :: M) = some ([], M) := by
  conv_lhs => unfold parseStrBody
  rw [if_pos rfl]

theorem parseStrBody_esc (e ch : Char) (M : List Char)
    (hu : e ≠ 'u') (hun : unescape e = some ch) :
    parseStrBody ('\\' :: e :: M) =
      (parseStrBody M).map (fun p => (ch :: p.1, p.2)) := by
  conv_lhs => unfold parseStrBody
  rw [if_neg (by decide), if_pos rfl]
  dsimp only
  rw [if_neg hu, hun]

theorem parseStrBody_u (h3 h4 : Char) (a b : Nat) (M : List Char)
    (e3 : hexVal h3 = some a) (e4 : hexVal h4 = some b) :
    parseStrBody ('\\' :: 'u' :: '0' :: '0' :: h3 :: h4 :: M) =
      (parseStrBody M).map
        (fun p => (Char.ofNat (((0 * 16 + 0) * 16 + a) * 16 + b) :: p.1, p.2)) := by
  conv_lhs => unfold parseStrBody
  rw [if_neg (by decide), if_pos rfl]
  dsimp only
  rw [if_pos rfl]
  rw [show hexVal '0' = some 0 from rfl, e3, e4]

theorem parseStrBody_ord (c : Char) (M : List Char) (h1 : c ≠ '"') (h2 : c ≠ '\\') :
    parseStrBody (c :: M) = (parseStrBody M).map (fun p => (c :: p.1, p.2)) := by
  conv_lhs => unfold parseStrBody
  rw [if_neg h1, if_neg h2]

theorem parseStrBody_encode : ∀ (s rest : List Char),
    parseStrBody ((s.map encodeChar).flatten ++ '"' :: rest) = some (s, rest) := by
  intro s
  induction s with
  | nil =>
      intro rest
      simp only [List.map_nil, List.flatten_nil, List.nil_append]
      exact parseStrBody_quote rest
  | cons c t ih =>
      intro rest
      simp only [List.map_cons, List.flatten_cons, List.append_assoc]
      by_cases h1 : c = '"'
      · subst h1
        rw [show encodeChar '"' = ['\\', '"'] from rfl]
        simp only [List.cons_append, List.nil_append]
        rw [parseStrBody_esc '"' '"' _ (by decide) rfl, ih]
        rfl
      · by_cases h2 : c = '\\'
        · subst h2
          rw [show encodeChar '\\' = ['\\', '\\'] from rfl]
          simp only [List.cons_append, List.nil_append]
          rw [parseStrBody_esc '\\' '\\' _ (by decide) rfl, ih]
          rfl
        · by_cases h3 : c = Char.ofNat 8
          · subst h3
            rw [show encodeChar (Char.ofNat 8) = ['\\', 'b'] from rfl]
            simp only [List.cons_append, List.nil_append]
            rw [parseStrBody_esc 'b' (Char.ofNat 8) _ (by decide) rfl, ih]
            rfl
          · by_cases h4 : c = Char.ofNat 9
            · subst h4
              rw [show encodeChar (Char.ofNat 9) = ['\\', 't'] from rfl]
              simp only [List.cons_append, List.nil_append]
              rw [parseStrBody_esc 't' (Char.ofNat 9) _ (by decide) rfl, ih]
              rfl
            · by_cases h5 : c = Char.ofNat 10
              · subst h5
                rw [show encodeChar (Char.ofNat 10) = ['\\', 'n'] from rfl]
                simp only [List.cons_append, List.nil_append]
                rw [parseStrBody_esc 'n' (Char.ofNat 10) _ (by decide) rfl, ih]
                rfl
              · by_cases h6 : c = Char.ofNat 12
                · subst h6
                  rw [show encodeChar (Char.ofNat 12) = ['\\', 'f'] from rfl]
                  simp only [List.cons_append, List.nil_append]
                  rw [parseStrBody_esc 'f' (Char.ofNat 12) _ (by decide) rfl, ih]
                  rfl
                · by_cases h7 : c = Char.ofNat 13
                  · subst h7
                    rw [show encodeChar (Char.ofNat 13) = ['\\', 'r'] from rfl]
                    simp only [List.cons_append, List.nil_append]
                    rw [parseStrBody_esc 'r' (Char.ofNat 13) _ (by decide) rfl, ih]
                    rfl
                  · by_cases h8 : c.toNat < 32
                    · have he : encodeChar c = ['\\', 'u', '0', '0',
                          hexDigitChar (c.toNat / 16), hexDigitChar (c.toNat % 16)] := by
                        unfold encodeChar
                        rw [if_neg h1, if_neg h2, if_neg h3, if_neg h4, if_neg h5,
                          if_neg h6, if_neg h7, if_pos h8]
                      rw [he]
                      simp only [List.cons_append, List.nil_append]
                      rw [parseStrBody_u _ _ _ _ _
                        (hexVal_hexDigitChar (by omega))
                        (hexVal_hexDigitChar (by omega))]
                      have harith : ((0 * 16 + 0) * 16 + c.toNat / 16) * 16 + c.toNat % 16
                          = c.toNat := by omega
                      simp only [harith, Char.ofNat_toNat]
                      rw [ih]
                      rfl
                    · have he : encodeChar c = [c] := by
                        unfold encodeChar
                        rw [if_neg h1, if_neg h2, if_neg h3, if_neg h4, if_neg h5,
                          if_neg h6, if_neg h7, if_neg h8]
                      rw [he]
                      simp only [List.cons_append, List.nil_append]
                      rw [parseStrBody_ord _ _ h1 h2, ih]
                      rfl

theorem skipWs_cons {c : Char} (l : List Char) (h : jsWsChar c = false) :
    skipWs (c :: l) = c :: l := by
  simp [skipWs, List.dropWhile, h]

theorem isDigit_ne {c x : Char} (h : c.isDigit = true) (hx : x.isDigit = false) :
    c ≠ x := by
  intro he
  rw [he] at h
  rw [h] at hx
  cases hx

theorem isDigit_not_ws {c : Char} (h : c.isDigit = true) : jsWsChar c = false := by
  simp only [jsWsChar, Bool.or_eq_false_iff, beq_eq_false_iff_ne]
  exact ⟨⟨⟨isDigit_ne h (by decide), isDigit_ne h (by decide)⟩,
    isDigit_ne h (by decide)⟩, isDigit_ne h (by decide)⟩

theorem intChars_cons (n : Int) :
    ∃ c t, intChars n = c :: t ∧ (c = '-' ∨ c.isDigit = true) := by
  unfold intChars
  by_cases hn : n < 0
  · exact ⟨'-', _, by rw [if_pos hn], Or.inl rfl⟩
  · rw [if_neg hn]
    obtain ⟨c, t, hct, hcd⟩ := natChars_head_not_minus n.toNat
    exact ⟨c, t, hct, Or.inr hcd⟩

/-- Head shape of a serialized value: never whitespace, never a closing
bracket or separator. -/
theorem stringifyV_cons (j : Json) :
    ∃ c t, stringifyV j = c :: t ∧ jsWsChar c = false ∧ c ≠ ']' ∧ c ≠ '}' ∧ c ≠ ',' := by
  cases j with
  | null => exact ⟨'n', _, rfl, by decide, by decide, by decide, by decide⟩
  | bool b =>
      cases b with
      | true => exact ⟨'t', _, rfl, by decide, by decide, by decide, by decide⟩
      | false => exact ⟨'f', _, rfl, by decide, by decide, by decide, by decide⟩
  | num n =>
      obtain ⟨c, t, hct, hc⟩ := intChars_cons n
      refine ⟨c, t, by rw [show stringifyV (.num n) = intChars n from rfl, hct], ?_⟩
      rcases hc with h | h
      · subst h; exact ⟨by decide, by decide, by decide, by decide⟩
      · exact ⟨isDigit_not_ws h, isDigit_ne h (by decide), isDigit_ne h (by decide),
          isDigit_ne h (by decide)⟩
  | str s => exact ⟨'"', _, rfl, by decide, by decide, by decide, by decide⟩
  | arr es => exact ⟨'[', _, rfl, by decide, by decide, by decide, by decide⟩
  | obj fs => exact ⟨'{', _, rfl, by decide, by decide, by decide, by decide⟩

theorem stringifyElems_cons (v : Json) (vs : JsonList) :
    ∃ c t, stringifyElems (.cons v vs) = c :: t ∧
      jsWsChar c = false ∧ c ≠ ']' ∧ c ≠ '}' ∧ c ≠ ',' := by
  obtain ⟨c, t, hct, hfacts⟩ := stringifyV_cons v
  cases vs with
  | nil => exact ⟨c, t, by rw [show stringifyElems (.cons v .nil) = stringifyV v from rfl, hct], hfacts⟩
  | cons w ws =>
      refine ⟨c, t ++ ',' :: stringifyElems (.cons w ws), ?_, hfacts⟩
      rw [show stringifyElems (.cons v (.cons w ws)) =
        stringifyV v ++ ',' :: stringifyElems (.cons w ws) from rfl, hct]
      rfl

mutual
def costV : Json → Nat
  | .null => 1
  | .bool _ => 1
  | .num _ => 1
  | .str _ => 1
  | .arr es => 1 + costElems es
  | .obj fs => 1 + costFields fs
def costElems : JsonList → Nat
  | .nil => 0
  | .cons v vs => 1 + max (costV v) (costElems vs)
def costFields : JsonFields → Nat
  | .nil => 0
  | .cons _ v fs => 1 + max (costV v) (costFields fs)
end

theorem costV_pos (j : Json) : 1 ≤ costV j := by
  cases j <;> simp [costV]

theorem costElems_pos (v : Json) (vs : JsonList) : 1 ≤ costElems (.cons v vs) := by
  simp [costElems]

theorem costFields_pos (k : String) (v : Json) (fs : JsonFields) :
    1 ≤ costFields (.cons k v fs) := by
  simp [costFields]

mutual
theorem costV_le : ∀ (j : Json), costV j ≤ (stringifyV j).length
  | .null => by simp [costV, stringifyV]
  | .bool b => by cases b <;> simp [costV, stringifyV]
  | .num n => by
      simp only [costV, stringifyV, intChars]
      split
      · simp
      · have h := natChars_ne_nil n.toNat
        have hp : 0 < (natChars n.toNat).length := List.length_pos.mpr h
        omega
  | .str s => by simp [costV, stringifyV, encodeStr]
  | .arr es => by
      have h := costElems_le es
      simp only [costV, stringifyV, List.length_cons, List.length_append]
      simp
      omega
  | .obj fs => by
      have h := costFields_le fs
      simp only [costV, stringifyV, List.length_cons, List.length_append]
      simp
      omega
theorem costElems_le : ∀ (es : JsonList), costElems es ≤ (stringifyElems es).length + 1
  | .nil => by simp [costElems]
  | .cons v .nil => by
      have h := costV_le v
      simp only [costElems, stringifyElems, costV]
      simp [costElems]
      omega
  | .cons v (.cons w rest) => by
      have h1 := costV_le v
      have h2 := costElems_le (.cons w rest)
      have hg : costElems (.cons v (.cons w rest)) =
          1 + max (costV v) (costElems (.cons w rest)) := by
        rw [costElems]
      have hs : stringifyElems (.cons v (.cons w rest)) =
          stringifyV v ++ ',' :: stringifyElems (.cons w rest) := by
        rw [stringifyElems]
      rw [hg, hs]
      simp only [List.length_append, List.length_cons]
      omega
theorem costFields_le : ∀ (fs : JsonFields), costFields fs ≤ (stringifyFields fs).length + 1
  | .nil => by simp [costFields]
  | .cons k v .nil => by
      have h := costV_le v
      simp only [costFields, stringifyFields, List.length_append, List.length_cons]
      simp [costFields]
      omega
  | .cons k v (.cons k2 v2 rest) => by
      have h1 := costV_le v
      have h2 := costFields_le (.cons k2 v2 rest)
      have hg : costFields (.cons k v (.cons k2 v2 rest)) =
          1 + max (costV v) (costFields (.cons k2 v2 rest)) := by
        rw [costFields]
      have hs : stringifyFields (.cons k v (.cons k2 v2 rest)) =
          encodeStr k.data ++ ':' :: stringifyV v ++
            ',' :: stringifyFields (.cons k2 v2 rest) := by
        rw [stringifyFields]
      rw [hg, hs]
      simp only [List.length_append, List.length_cons]
      omega
end

theorem parseVal_succ_null (fuel : Nat) (rest : List Char) :
    parseVal (fuel + 1) (stringifyV .null ++ rest) = some (.null, rest) := by
  show parseVal (fuel + 1) ('n' :: 'u' :: 'l' :: 'l' :: rest) = some (.null, rest)
  conv_lhs => unfold parseVal
  rw [skipWs_cons _ (by decide)]
  simp

theorem parseVal_succ_bool (fuel : Nat) (b : Bool) (rest : List Char) :
    parseVal (fuel + 1) (stringifyV (.bool b) ++ rest) = some (.bool b, rest) := by
  cases b with
  | true =>
      show parseVal (fuel + 1) ('t' :: 'r' :: 'u' :: 'e' :: rest) = some (.bool true, rest)
      conv_lhs => unfold parseVal
      rw [skipWs_cons _ (by decide)]
      simp
  | false =>
      show parseVal (fuel + 1) ('f' :: 'a' :: 'l' :: 's' :: 'e' :: rest) =
        some (.bool false, rest)
      conv_lhs => unfold parseVal
      rw [skipWs_cons _ (by decide)]
      simp

theorem parseVal_succ_str (fuel : Nat) (s : String) (rest : List Char) :
    parseVal (fuel + 1) (stringifyV (.str s) ++ rest) = some (.str s, rest) := by
  have hred : stringifyV (.str s) ++ rest =
      '"' :: ((s.data.map encodeChar).flatten ++ '"' :: rest) := by
    show ('"' :: ((s.data.map encodeChar).flatten ++ ['"'])) ++ rest = _
    simp [List.append_assoc]
  rw [hred]
  conv_lhs => unfold parseVal
  rw [skipWs_cons _ (by decide)]
  simp only [List.take_succ_cons]
  rw [if_neg (by simp), if_neg (by simp), if_neg (by simp)]
  rw [parseStrBody_encode]
  rfl

theorem parseVal_succ_num (fuel : Nat) (n : Int) (rest : List Char)
    (hrest : noDigitHead rest) :
    parseVal (fuel + 1) (stringifyV (.num n) ++ rest) = some (.num n, rest) := by
  obtain ⟨c, t, hct, hc⟩ := intChars_cons n
  have hsv : stringifyV (.num n) = intChars n := rfl
  rw [hsv, hct]
  have hws : jsWsChar c = false := by
    rcases hc with h | h
    · subst h; decide
    · exact isDigit_not_ws h
  have hne : c ≠ 'n' ∧ c ≠ 't' ∧ c ≠ 'f' ∧ c ≠ '"' ∧ c ≠ '[' ∧ c ≠ '{' := by
    rcases hc with h | h
    · subst h
      exact ⟨by decide, by decide, by decide, by decide, by decide, by decide⟩
    · exact ⟨isDigit_ne h (by decide), isDigit_ne h (by decide), isDigit_ne h (by decide),
        isDigit_ne h (by decide), isDigit_ne h (by decide), isDigit_ne h (by decide)⟩
  show parseVal (fuel + 1) (c :: (t ++ rest)) = some (.num n, rest)
  conv_lhs => unfold parseVal
  rw [skipWs_cons _ hws]
  simp only [List.take_succ_cons]
  rw [if_neg (by simp [hne.1]), if_neg (by simp [hne.2.1]), if_neg (by simp [hne.2.2.1])]
  split
  · rename_i heq
    injection heq with hh _
    exact absurd hh hne.2.2.2.1
  · rename_i heq
    injection heq with hh _
    exact absurd hh hne.2.2.2.2.1
  · rename_i heq
    injection heq with hh _
    exact absurd hh hne.2.2.2.2.2
  · rw [show c :: (t ++ rest) = (c :: t) ++ rest from rfl, ← hct,
      parseIntL_intChars n rest hrest]
    rfl

theorem parseVal_succ_arr (fuel : Nat) (es : JsonList) (rest : List Char)
    (ihE : es ≠ .nil →
      parseElems fuel (stringifyElems es ++ ']' :: rest) = some (es, rest)) :
    parseVal (fuel + 1) (stringifyV (.arr es) ++ rest) = some (.arr es, rest) := by
  have hsv : stringifyV (.arr es) ++ rest =
      '[' :: (stringifyElems es ++ ']' :: rest) := by
    show ('[' :: (stringifyElems es ++ [']'])) ++ rest = _
    simp [List.append_assoc]
  rw [hsv]
  conv_lhs => unfold parseVal
  rw [skipWs_cons _ (by decide)]
  simp only [List.take_succ_cons]
  rw [if_neg (by simp), if_neg (by simp), if_neg (by simp)]
  cases es with
  | nil =>
      show (match skipWs (']' :: rest) with
        | ']' :: r2 => some (Json.arr JsonList.nil, r2)
        | l2 => Option.map (fun p => (Json.arr p.1, p.2)) (parseElems fuel l2)) =
        some (Json.arr JsonList.nil, rest)
      rw [skipWs_cons _ (by decide)]
      rfl
  | cons v vs =>
      obtain ⟨c, t, hct, hws, hrb, _, _⟩ := stringifyElems_cons v vs
      show (match skipWs (stringifyElems (.cons v vs) ++ ']' :: rest) with
        | ']' :: r2 => some (Json.arr JsonList.nil, r2)
        | l2 => Option.map (fun p => (Json.arr p.1, p.2)) (parseElems fuel l2)) =
        some (Json.arr (.cons v vs), rest)
      rw [hct, show (c :: t) ++ ']' :: rest = c :: (t ++ ']' :: rest) from rfl,
        skipWs_cons _ hws]
      split
      · rename_i heq
        injection heq with hh _
        exact absurd hh hrb
      · rw [show c :: (t ++ ']' :: rest) = (c :: t) ++ ']' :: rest from rfl, ← hct,
          ihE (by intro h; cases h)]
        rfl

theorem stringifyFields_head (k : String) (v : Json) (fs : JsonFields) :
    ∃ t, stringifyFields (.cons k v fs) = '"' :: t := by
  cases fs with
  | nil =>
      refine ⟨((k.data.map encodeChar).flatten ++ ['"']) ++ ':' :: stringifyV v, ?_⟩
      show encodeStr k.data ++ ':' :: stringifyV v = _
      rfl
  | cons k2 v2 r =>
      refine ⟨((k.data.map encodeChar).flatten ++ ['"']) ++ ':' :: stringifyV v ++
        ',' :: stringifyFields (.cons k2 v2 r), ?_⟩
      show encodeStr k.data ++ ':' :: stringifyV v ++
        ',' :: stringifyFields (.cons k2 v2 r) = _
      rfl

theorem parseVal_succ_obj (fuel : Nat) (fs : JsonFields) (rest : List Char)
    (ihF : fs ≠ .nil →
      parseFields fuel (stringifyFields fs ++ '}' :: rest) = some (fs, rest)) :
    parseVal (fuel + 1) (stringifyV (.obj fs) ++ rest) = some (.obj fs, rest) := by
  have hsv : stringifyV (.obj fs) ++ rest =
      '{' :: (stringifyFields fs ++ '}' :: rest) := by
    show ('{' :: (stringifyFields fs ++ ['}'])) ++ rest = _
    simp [List.append_assoc]
  rw [hsv]
  conv_lhs => unfold parseVal
  rw [skipWs_cons _ (by decide)]
  simp only [List.take_succ_cons]
  rw [if_neg (by simp), if_neg (by simp), if_neg (by simp)]
  cases fs with
  | nil =>
      show (match skipWs ('}' :: rest) with
        | '}' :: r2 => some (Json.obj JsonFields.nil, r2)
        | l2 => Option.map (fun p => (Json.obj p.1, p.2)) (parseFields fuel l2)) =
        some (Json.obj JsonFields.nil, rest)
      rw [skipWs_cons _ (by decide)]
      rfl
  | cons k v fs2 =>
      obtain ⟨t, ht⟩ := stringifyFields_head k v fs2
      show (match skipWs (stringifyFields (.cons k v fs2) ++ '}' :: rest) with
        | '}' :: r2 => some (Json.obj JsonFields.nil, r2)
        | l2 => Option.map (fun p => (Json.obj p.1, p.2)) (parseFields fuel l2)) =
        some (Json.obj (.cons k v fs2), rest)
      rw [ht, show ('"' :: t) ++ '}' :: rest = '"' :: (t ++ '}' :: rest) from rfl,
        skipWs_cons _ (by decide)]
      split
      · rename_i heq
        injection heq with hh _
        exact absurd hh (by decide)
      · rw [show '"' :: (t ++ '}' :: rest) = ('"' :: t) ++ '}' :: rest from rfl, ← ht,
          ihF (fun h => JsonFields.noConfusion h)]
        rfl

theorem noDigitHead_cons {c : Char} (l : List Char) (h : c.isDigit = false) :
    noDigitHead (c :: l) := by
  intro x hx
  simp at hx
  subst hx
  exact h

theorem parseElems_succ (fuel : Nat) (v : Json) (vs : JsonList) (rest : List Char)
    (ihV : ∀ r2 : List Char, noDigitHead r2 →
        parseVal fuel (stringifyV v ++ r2) = some (v, r2))
    (ihE : vs ≠ .nil →
        parseElems fuel (stringifyElems vs ++ ']' :: rest) = some (vs, rest)) :
    parseElems (fuel + 1) (stringifyElems (.cons v vs) ++ ']' :: rest) =
      some (.cons v vs, rest) := by
  cases vs with
  | nil =>
      have hl : stringifyElems (.cons v .nil) ++ ']' :: rest =
          stringifyV v ++ ']' :: rest := rfl
      rw [hl]
      conv_lhs => unfold parseElems
      rw [ihV _ (noDigitHead_cons _ (by decide))]
      dsimp only
      rw [skipWs_cons _ (by decide)]
      rfl
  | cons w ws =>
      have hl : stringifyElems (.cons v (.cons w ws)) ++ ']' :: rest =
          stringifyV v ++ ',' :: (stringifyElems (.cons w ws) ++ ']' :: rest) := by
        show (stringifyV v ++ ',' :: stringifyElems (.cons w ws)) ++ ']' :: rest = _
        simp [List.append_assoc]
      rw [hl]
      conv_lhs => unfold parseElems
      rw [ihV _ (noDigitHead_cons _ (by decide))]
      dsimp only
      rw [skipWs_cons _ (by decide)]
      show Option.map (fun p => (JsonList.cons v p.1, p.2))
        (parseElems fuel (stringifyElems (.cons w ws) ++ ']' :: rest)) =
        some (.cons v (.cons w ws), rest)
      rw [ihE (fun h => JsonList.noConfusion h)]
      rfl

theorem parseFields_succ (fuel : Nat) (k : String) (v : Json) (fs : JsonFields)
    (rest : List Char)
    (ihV : ∀ r2 : List Char, noDigitHead r2 →
        parseVal fuel (stringifyV v ++ r2) = some (v, r2))
    (ihF : fs ≠ .nil →
        parseFields fuel (stringifyFields fs ++ '}' :: rest) = some (fs, rest)) :
    parseFields (fuel + 1) (stringifyFields (.cons k v fs) ++ '}' :: rest) =
      some (.cons k v fs, rest) := by
  cases fs with
  | nil =>
      have hl : stringifyFields (.cons k v .nil) ++ '}' :: rest =
          '"' :: ((k.data.map encodeChar).flatten ++
            '"' :: (':' :: (stringifyV v ++ '}' :: rest))) := by
        show (encodeStr k.data ++ ':' :: stringifyV v) ++ '}' :: rest = _
        simp [encodeStr, List.append_assoc]
      have hs1 : skipWs (':' :: (stringifyV v ++ '}' :: rest)) =
          ':' :: (stringifyV v ++ '}' :: rest) := skipWs_cons _ (by decide)
      have hs2 : skipWs ('}' :: rest) = '}' :: rest := skipWs_cons _ (by decide)
      have hV := ihV ('}' :: rest) (noDigitHead_cons _ (by decide))
      rw [hl]
      conv_lhs => unfold parseFields
      rw [skipWs_cons _ (by decide)]
      simp only [parseStrBody_encode, hs1, hV, hs2]
  | cons k2 v2 fs2 =>
      have hl : stringifyFields (.cons k v (.cons k2 v2 fs2)) ++ '}' :: rest =
          '"' :: ((k.data.map encodeChar).flatten ++
            '"' :: (':' :: (stringifyV v ++
              ',' :: (stringifyFields (.cons k2 v2 fs2) ++ '}' :: rest)))) := by
        show (encodeStr k.data ++ ':' :: stringifyV v ++
          ',' :: stringifyFields (.cons k2 v2 fs2)) ++ '}' :: rest = _
        simp [encodeStr, List.append_assoc]
      have hs1 : skipWs (':' :: (stringifyV v ++
          ',' :: (stringifyFields (.cons k2 v2 fs2) ++ '}' :: rest))) =
          ':' :: (stringifyV v ++
            ',' :: (stringifyFields (.cons k2 v2 fs2) ++ '}' :: rest)) :=
        skipWs_cons _ (by decide)
      have hs2 : skipWs (',' :: (stringifyFields (.cons k2 v2 fs2) ++ '}' :: rest)) =
          ',' :: (stringifyFields (.cons k2 v2 fs2) ++ '}' :: rest) :=
        skipWs_cons _ (by decide)
      have hV := ihV (',' :: (stringifyFields (.cons k2 v2 fs2) ++ '}' :: rest))
        (noDigitHead_cons _ (by decide))
      have hF := ihF (fun h => JsonFields.noConfusion h)
      rw [hl]
      conv_lhs => unfold parseFields
      rw [skipWs_cons _ (by decide)]
      simp only [parseStrBody_encode, hs1, hV, hs2, hF]
      rfl

theorem parse_stringify : ∀ fuel : Nat,
    (∀ (j : Json) (rest : List Char), costV j ≤ fuel → noDigitHead rest →
        parseVal fuel (stringifyV j ++ rest) = some (j, rest)) ∧
    (∀ (es : JsonList) (rest : List Char), es ≠ .nil → costElems es ≤ fuel →
        parseElems fuel (stringifyElems es ++ ']' :: rest) = some (es, rest)) ∧
    (∀ (fs : JsonFields) (rest : List Char), fs ≠ .nil → costFields fs ≤ fuel →
        parseFields fuel (stringifyFields fs ++ '}' :: rest) = some (fs, rest)) := by
  intro fuel
  induction fuel with
  | zero =>
      refine ⟨?_, ?_, ?_⟩
      · intro j rest hc _
        exact absurd hc (by have := costV_pos j; omega)
      · intro es rest hne hc
        cases es with
        | nil => exact absurd rfl hne
        | cons v vs => exact absurd hc (by have := costElems_pos v vs; omega)
      · intro fs rest hne hc
        cases fs with
        | nil => exact absurd rfl hne
        | cons k v fs2 => exact absurd hc (by have := costFields_pos k v fs2; omega)
  | succ fuel ih =>
      obtain ⟨ihV, ihE, ihF⟩ := ih
      refine ⟨?_, ?_, ?_⟩
      · intro j rest hc hrest
        cases j with
        | null => exact parseVal_succ_null fuel rest
        | bool b => exact parseVal_succ_bool fuel b rest
        | num n => exact parseVal_succ_num fuel n rest hrest
        | str s => exact parseVal_succ_str fuel s rest
        | arr es =>
            refine parseVal_succ_arr fuel es rest (fun hne => ihE es rest hne ?_)
            have hcv : costV (.arr es) = 1 + costElems es := by rw [costV]
            omega
        | obj fs =>
            refine parseVal_succ_obj fuel fs rest (fun hne => ihF fs rest hne ?_)
            have hcv : costV (.obj fs) = 1 + costFields fs := by rw [costV]
            omega
      · intro es rest hne hc
        cases es with
        | nil => exact absurd rfl hne
        | cons v vs =>
            have hcv : costElems (.cons v vs) = 1 + max (costV v) (costElems vs) := by
              rw [costElems]
            have hm1 := Nat.le_max_left (costV v) (costElems vs)
            have hm2 := Nat.le_max_right (costV v) (costElems vs)
            refine parseElems_succ fuel v vs rest ?_ ?_
            · intro r2 h2
              exact ihV v r2 (by omega) h2
            · intro hvs
              exact ihE vs rest hvs (by omega)
      · intro fs rest hne hc
        cases fs with
        | nil => exact absurd rfl hne
        | cons k v fs2 =>
            have hcv : costFields (.cons k v fs2) =
                1 + max (costV v) (costFields fs2) := by
              rw [costFields]
            have hm1 := Nat.le_max_left (costV v) (costFields fs2)
            have hm2 := Nat.le_max_right (costV v) (costFields fs2)
            refine parseFields_succ fuel k v fs2 rest ?_ ?_
            · intro r2 h2
              exact ihV v r2 (by omega) h2
            · intro hfs
              exact ihF fs2 rest hfs (by omega)

theorem jsonParse_stringifyV (j : Json) :
    jsonParse ⟨stringifyV j⟩ = some j := by
  unfold jsonParse
  have hlen : (String.mk (stringifyV j)).length = (stringifyV j).length := rfl
  have hdata : (String.mk (stringifyV j)).data = stringifyV j := rfl
  rw [hlen, hdata]
  have h := (parse_stringify ((stringifyV j).length + 1)).1 j []
    (by have := costV_le j; omega) (by intro c hc; cases hc)
  rw [List.append_nil] at h
  rw [h]
  rfl

/-- C4: round trip of the credential double-encoding — for every JSON
document `d`, the adapter's `JSON.stringify(JSON.stringify(d))` blob,
decoded by the executor with exactly two `JSON.parse` calls, reconstructs
`d`. -/
theorem c4_double_encoding_roundtrip (d : Json) :
    doubleDecode (doubleEncode d) = some d := by
  unfold doubleEncode doubleDecode
  rw [jsonParse_stringifyV (.str ⟨stringifyV d⟩)]
  exact jsonParse_stringifyV d
